import Mathlib

/-!
Shallow embedding of the dynamic vector container in `src/vector.c`.

The C container is

  struct vector { void **elems; int capacity; int size; };

We model the backing store `elems` as a total function `Int → α`: slots in
`[0, capacity)` are allocated, slots in `[0, size)` hold logically valid
handles, and everything else holds unconstrained junk (uninitialized memory).
`capacity` and `size` are C `int`s, modelled as `Int`; the `(size_t)` casts
that the source performs in its bounds checks are modelled explicitly as
reduction modulo 2^64.  An operation whose internal `assert` would fire
returns `none` (the process aborts before any element slot is read or
written); otherwise it returns `some` of its result.
-/

namespace CVec

/-- Modulus of the C `size_t` type on the target platform: 2^64. -/
def USIZE : Int := 18446744073709551616

/-- One more than `INT_MAX`, i.e. 2^31; a C `int` value lies in
`[-INTMOD, INTMOD)`. -/
def INTMOD : Int := 2147483648

/-- The C conversion of a signed integer value to `size_t`
(reduction modulo 2^64). -/
def toSizeT (i : Int) : Int := i % USIZE

/-- The vector record, mirroring `struct vector` in `src/vector.c`:
`elems` is the backing store, `capacity` the number of allocated slots,
`size` the number of elements currently stored. -/
structure CVector (α : Type) where
  elems : Int → α
  capacity : Int
  size : Int

variable {α : Type}

/-- Embeds `vector_create`.  The single malloc'd slot (and, in the model,
every other address) holds arbitrary junk, passed in as a parameter;
capacity starts at 1 and size at 0. -/
def vector_create (junk : Int → α) : CVector α :=
  { elems := junk, capacity := 1, size := 0 }

/-- Embeds `vector_size`: returns `v->size`. -/
def vector_size (v : CVector α) : Int := v.size

/-- Embeds `vector_in_bounds`: the C source returns `i < (size_t) v->size`,
where the usual arithmetic conversions also convert `i` itself to `size_t`
before the unsigned comparison. -/
def vector_in_bounds (v : CVector α) (i : Int) : Bool :=
  decide (toSizeT i < toSizeT v.size)

/-- Embeds the internal helper `get_element`: `assert(i < (size_t) v->size)`
and then return the address `&v->elems[i]`, modelled as the index `i`.
A failed assert aborts the process, modelled as `none`. -/
def get_element (v : CVector α) (i : Int) : Option Int :=
  if toSizeT i < toSizeT v.size then some i else none

/-- Semantics of the C `memmove(f + dst, f + src, n * sizeof(void *))` on a
backing store `f`: the overlap-safe bulk move copies, as if through a
temporary buffer, the `n` slots starting at `src` onto the `n` slots
starting at `dst`. -/
def memmove (f : Int → α) (dst src n : Int) : Int → α :=
  fun j => if dst ≤ j ∧ j < dst + n then f (src + (j - dst)) else f j

/-- Embeds the internal helper `extend_if_necessary`: when `size > capacity`
the capacity is doubled and the store reallocated; `realloc` preserves the
existing contents, so `elems` is unchanged in the model. -/
def extend_if_necessary (v : CVector α) : CVector α :=
  if v.size > v.capacity then { v with capacity := v.capacity * 2 } else v

/-- Embeds `vector_set`: write `value` through the pointer returned by
`get_element(v, i)`. -/
def vector_set (v : CVector α) (i : Int) (x : α) : Option (CVector α) :=
  (get_element v i).map fun t =>
    { v with elems := fun j => if j = t then x else v.elems j }

/-- Embeds `vector_get`: dereference the pointer returned by
`get_element(v, i)`. -/
def vector_get (v : CVector α) (i : Int) : Option α :=
  (get_element v i).map fun t => v.elems t

/-- Embeds `vector_insert`: increment `size`, extend if necessary, take
`target = get_element(v, i)`, shift the `remaining = size - i - 1` slots
starting at `target` one slot right with `memmove`, then store the value
at `target`. -/
def vector_insert (v : CVector α) (i : Int) (x : α) : Option (CVector α) :=
  let v1 : CVector α := { v with size := v.size + 1 }
  let v2 := extend_if_necessary v1
  (get_element v2 i).map fun t =>
    let remaining := v2.size - t - 1
    let moved := memmove v2.elems (t + 1) t remaining
    { v2 with elems := fun j => if j = t then x else moved j }

/-- Embeds `vector_remove`: take `target = get_element(v, i)`, save
`result = *target`, shift the `remaining = size - i - 1` slots starting at
`target + 1` one slot left with `memmove`, decrement `size`, and return the
saved value. -/
def vector_remove (v : CVector α) (i : Int) : Option (α × CVector α) :=
  (get_element v i).map fun t =>
    let result := v.elems t
    let remaining := v.size - t - 1
    let moved := memmove v.elems t (t + 1) remaining
    (result, { v with elems := moved, size := v.size - 1 })

/-- Embeds `vector_push`: offload to `vector_insert(v, v->size, value)`. -/
def vector_push (v : CVector α) (x : α) : Option (CVector α) :=
  vector_insert v v.size x

/-- Embeds `vector_pop`: offload to `vector_remove(v, v->size - 1)`. -/
def vector_pop (v : CVector α) : Option (α × CVector α) :=
  vector_remove v (v.size - 1)

/-- The logical contents of the vector: the list of handles in slots
`[0, size)`, in index order. -/
def toSeq (v : CVector α) : List α :=
  (List.range v.size.toNat).map (fun (k : Nat) => v.elems (k : Int))

/-! Helper lemmas characterizing the embedded operations. -/

/-- The unsigned comparison `(size_t) i < (size_t) s` succeeds exactly on
`0 ≤ i < s` once both values are in the C `int` range. -/
theorem toSizeT_lt_iff {i s : Int} (hi1 : -INTMOD ≤ i) (hi2 : i < INTMOD)
    (hs1 : 0 ≤ s) (hs2 : s < INTMOD) :
    (toSizeT i < toSizeT s) ↔ (0 ≤ i ∧ i < s) := by
  unfold toSizeT USIZE INTMOD at *
  omega

/-- The `get_element` assert passes on an in-range index. -/
theorem get_element_pos (v : CVector α) (i : Int) (hi : 0 ≤ i)
    (hlt : i < v.size) (hs : v.size < USIZE) :
    get_element v i = some i := by
  unfold get_element toSizeT USIZE at *
  rw [if_pos]
  omega

/-- The `get_element` assert fails on a negative or too-large `int` index
(for a container whose size is a valid nonnegative `int`): the cast to
`size_t` turns a negative index into a value at least 2^64 - 2^31, far above
any valid size. -/
theorem get_element_none (v : CVector α) (i : Int) (hi1 : -INTMOD ≤ i)
    (hi2 : i < INTMOD) (hs1 : 0 ≤ v.size) (hs2 : v.size < INTMOD)
    (h : i < 0 ∨ v.size ≤ i) :
    get_element v i = none := by
  unfold get_element toSizeT USIZE INTMOD at *
  rw [if_neg]
  omega

theorem extend_size (v : CVector α) :
    (extend_if_necessary v).size = v.size := by
  unfold extend_if_necessary
  split <;> rfl

theorem extend_elems (v : CVector α) :
    (extend_if_necessary v).elems = v.elems := by
  unfold extend_if_necessary
  split <;> rfl

theorem extend_capacity (v : CVector α) :
    (extend_if_necessary v).capacity =
      if v.size > v.capacity then v.capacity * 2 else v.capacity := by
  unfold extend_if_necessary
  split <;> rfl

/-- Full characterization of a successful `vector_insert` under the spec
precondition `0 ≤ i ≤ size`: the new size, the new capacity, and every slot
of the new backing store. -/
theorem vector_insert_char (v : CVector α) (i : Int) (x : α) (hi : 0 ≤ i)
    (hle : i ≤ v.size) (hs : v.size + 1 < USIZE) :
    ∃ w, vector_insert v i x = some w ∧
      w.size = v.size + 1 ∧
      w.capacity =
        (if v.size + 1 > v.capacity then v.capacity * 2 else v.capacity) ∧
      ∀ j, w.elems j = if j = i then x
        else if i < j ∧ j < v.size + 1 then v.elems (j - 1) else v.elems j := by
  have hget : get_element (extend_if_necessary { v with size := v.size + 1 }) i
      = some i := by
    have h1 : ({ v with size := v.size + 1 } : CVector α).size = v.size + 1 := rfl
    have := extend_size ({ v with size := v.size + 1 } : CVector α)
    rw [h1] at this
    apply get_element_pos
    · exact hi
    · rw [this]
      omega
    · rw [this]
      exact hs
  simp only [vector_insert, hget, Option.map_some']
  refine ⟨_, rfl, ?_, ?_, ?_⟩
  · show (extend_if_necessary { v with size := v.size + 1 }).size = v.size + 1
    rw [extend_size]
  · show (extend_if_necessary { v with size := v.size + 1 }).capacity = _
    rw [extend_capacity]
  · intro j
    show (if j = i then x else
      memmove (extend_if_necessary { v with size := v.size + 1 }).elems
        (i + 1) i ((extend_if_necessary { v with size := v.size + 1 }).size - i - 1) j) = _
    simp only [extend_elems, extend_size]
    by_cases h1 : j = i
    · rw [if_pos h1, if_pos h1]
    · rw [if_neg h1, if_neg h1]
      simp only [memmove]
      by_cases h2 : i < j ∧ j < v.size + 1
      · rw [if_pos h2,
          if_pos (show i + 1 ≤ j ∧ j < i + 1 + (v.size + 1 - i - 1) by omega)]
        congr 1
        omega
      · rw [if_neg h2,
          if_neg (show ¬(i + 1 ≤ j ∧ j < i + 1 + (v.size + 1 - i - 1)) by omega)]

/-- Full characterization of a successful `vector_remove` under the spec
precondition `0 ≤ i < size`: the returned handle, the new size, the unchanged
capacity, and every slot of the new backing store. -/
theorem vector_remove_char (v : CVector α) (i : Int) (hi : 0 ≤ i)
    (hlt : i < v.size) (hs : v.size < USIZE) :
    ∃ w, vector_remove v i = some (v.elems i, w) ∧
      w.size = v.size - 1 ∧
      w.capacity = v.capacity ∧
      ∀ j, w.elems j =
        if i ≤ j ∧ j < v.size - 1 then v.elems (j + 1) else v.elems j := by
  have hget : get_element v i = some i := get_element_pos v i hi hlt hs
  simp only [vector_remove, hget, Option.map_some']
  refine ⟨_, rfl, rfl, rfl, ?_⟩
  intro j
  show memmove v.elems i (i + 1) (v.size - i - 1) j = _
  simp only [memmove]
  by_cases hcond : i ≤ j ∧ j < v.size - 1
  · rw [if_pos (show i ≤ j ∧ j < i + (v.size - i - 1) by omega), if_pos hcond]
    congr 1
    omega
  · rw [if_neg (show ¬(i ≤ j ∧ j < i + (v.size - i - 1)) by omega), if_neg hcond]

/-- Full characterization of a successful `vector_set` under the spec
precondition `0 ≤ i < size`. -/
theorem vector_set_char (v : CVector α) (i : Int) (x : α) (hi : 0 ≤ i)
    (hlt : i < v.size) (hs : v.size < USIZE) :
    ∃ w, vector_set v i x = some w ∧
      w.size = v.size ∧
      w.capacity = v.capacity ∧
      ∀ j, w.elems j = if j = i then x else v.elems j := by
  have hget : get_element v i = some i := get_element_pos v i hi hlt hs
  simp only [vector_set, hget, Option.map_some']
  exact ⟨_, rfl, rfl, rfl, fun j => rfl⟩

/-- A successful `vector_get` on an in-range index returns the stored
handle. -/
theorem vector_get_pos (v : CVector α) (i : Int) (hi : 0 ≤ i)
    (hlt : i < v.size) (hs : v.size < USIZE) :
    vector_get v i = some (v.elems i) := by
  have hget : get_element v i = some i := get_element_pos v i hi hlt hs
  simp only [vector_get, hget, Option.map_some']

/-- Size and capacity effect of any successful insert. -/
theorem insert_size_cap {v w : CVector α} {i : Int} {x : α}
    (h : vector_insert v i x = some w) :
    w.size = v.size + 1 ∧
    w.capacity =
      (if v.size + 1 > v.capacity then v.capacity * 2 else v.capacity) := by
  simp only [vector_insert, Option.map_eq_some'] at h
  obtain ⟨t, hg, hft⟩ := h
  subst hft
  constructor
  · show (extend_if_necessary { v with size := v.size + 1 }).size = v.size + 1
    rw [extend_size]
  · show (extend_if_necessary { v with size := v.size + 1 }).capacity = _
    rw [extend_capacity]

/-- Size and capacity effect of any successful remove. -/
theorem remove_size_cap {v : CVector α} {i : Int} {r : α × CVector α}
    (h : vector_remove v i = some r) :
    r.2.size = v.size - 1 ∧ r.2.capacity = v.capacity := by
  simp only [vector_remove, Option.map_eq_some'] at h
  obtain ⟨t, hg, hft⟩ := h
  subst hft
  exact ⟨rfl, rfl⟩

/-- Size and capacity effect of any successful set. -/
theorem set_size_cap {v w : CVector α} {i : Int} {x : α}
    (h : vector_set v i x = some w) :
    w.size = v.size ∧ w.capacity = v.capacity := by
  simp only [vector_set, Option.map_eq_some'] at h
  obtain ⟨t, hg, hft⟩ := h
  subst hft
  exact ⟨rfl, rfl⟩

/-- An `int` bound is in particular a `size_t` bound. -/
theorem lt_usize_of_lt_intmod {s : Int} (h : s < INTMOD) : s < USIZE := by
  unfold USIZE INTMOD at *
  omega

/-- Characterization of the source's bounds check: for an `int` index and an
`int`-valued nonnegative size, `vector_in_bounds` returns true exactly on
`0 ≤ i < size`. -/
theorem in_bounds_char (v : CVector α) (i : Int) (hi1 : -INTMOD ≤ i)
    (hi2 : i < INTMOD) (hs1 : 0 ≤ v.size) (hs2 : v.size < INTMOD) :
    vector_in_bounds v i = true ↔ (0 ≤ i ∧ i < v.size) := by
  simp only [vector_in_bounds, decide_eq_true_eq]
  exact toSizeT_lt_iff hi1 hi2 hs1 hs2

/-- A concrete junk backing store used to build witness containers. -/
def sampleJunk : Int → Int := fun _ => 0

/-- A concrete container with elements 10, 11, 12 (size 3, capacity 4), used
as a witness input. -/
def sampleV : CVector Int :=
  { elems := fun j => if j = 0 then 10 else if j = 1 then 11 else
      if j = 2 then 12 else 0,
    capacity := 4, size := 3 }

/-! Claim theorems. -/

/-- C1: for `0 ≤ i ≤ size`, `insert(v, i, x)` increases size by exactly 1,
leaves the elements at indices below `i` unchanged, stores `x` at index `i`,
and shifts the elements previously at `[i, size)` one slot to the right in
order. -/
theorem insert_shifts_right (v : CVector α) (i : Int) (x : α) (hi : 0 ≤ i)
    (hle : i ≤ v.size) (hs : v.size + 1 < INTMOD) :
    ∃ w, vector_insert v i x = some w ∧
      w.size = v.size + 1 ∧
      (∀ j, 0 ≤ j → j < i → w.elems j = v.elems j) ∧
      w.elems i = x ∧
      (∀ j, i ≤ j → j < v.size → w.elems (j + 1) = v.elems j) := by
  obtain ⟨w, heq, hsize, hcap, helems⟩ :=
    vector_insert_char v i x hi hle (lt_usize_of_lt_intmod hs)
  refine ⟨w, heq, hsize, ?_, ?_, ?_⟩
  · intro j hj1 hj2
    rw [helems j, if_neg (by omega), if_neg (by omega)]
  · rw [helems i, if_pos rfl]
  · intro j hj1 hj2
    rw [helems (j + 1), if_neg (by omega), if_pos (by omega)]
    congr 1
    omega

theorem insert_shifts_right_witness :
    ∃ w, vector_insert sampleV 1 (99 : Int) = some w ∧
      w.size = sampleV.size + 1 ∧
      (∀ j, 0 ≤ j → j < 1 → w.elems j = sampleV.elems j) ∧
      w.elems 1 = 99 ∧
      (∀ j, 1 ≤ j → j < sampleV.size → w.elems (j + 1) = sampleV.elems j) :=
  insert_shifts_right sampleV 1 99 (by decide) (by decide) (by decide)

/-- C2: for `0 ≤ i < size`, `remove(v, i)` returns the handle stored at
index `i`, leaves the elements below `i` unchanged, shifts the elements
previously at `(i, size)` one slot to the left in order, and decreases size
by exactly 1. -/
theorem remove_shifts_left (v : CVector α) (i : Int) (hi : 0 ≤ i)
    (hlt : i < v.size) (hs : v.size < INTMOD) :
    ∃ w, vector_remove v i = some (v.elems i, w) ∧
      w.size = v.size - 1 ∧
      (∀ j, 0 ≤ j → j < i → w.elems j = v.elems j) ∧
      (∀ j, i ≤ j → j < v.size - 1 → w.elems j = v.elems (j + 1)) := by
  obtain ⟨w, heq, hsize, hcap, helems⟩ :=
    vector_remove_char v i hi hlt (lt_usize_of_lt_intmod hs)
  refine ⟨w, heq, hsize, ?_, ?_⟩
  · intro j hj1 hj2
    rw [helems j, if_neg (by omega)]
  · intro j hj1 hj2
    rw [helems j, if_pos ⟨hj1, hj2⟩]

theorem remove_shifts_left_witness :
    ∃ w, vector_remove sampleV 1 = some (sampleV.elems 1, w) ∧
      w.size = sampleV.size - 1 ∧
      (∀ j, 0 ≤ j → j < 1 → w.elems j = sampleV.elems j) ∧
      (∀ j, 1 ≤ j → j < sampleV.size - 1 → w.elems j = sampleV.elems (j + 1)) :=
  remove_shifts_left sampleV 1 (by decide) (by decide) (by decide)

/-- C3: for every `int` index `i`, including negative values and values at
least `size`, `in_bounds(v, i)` returns true if and only if `0 ≤ i < size`. -/
theorem in_bounds_iff (v : CVector α) (i : Int) (hi1 : -INTMOD ≤ i)
    (hi2 : i < INTMOD) (hs1 : 0 ≤ v.size) (hs2 : v.size < INTMOD) :
    vector_in_bounds v i = true ↔ (0 ≤ i ∧ i < v.size) :=
  in_bounds_char v i hi1 hi2 hs1 hs2

theorem in_bounds_iff_witness :
    (vector_in_bounds sampleV (-5) = true ↔ (0 ≤ (-5 : Int) ∧ (-5 : Int) < sampleV.size)) :=
  in_bounds_iff sampleV (-5) (by decide) (by decide) (by decide) (by decide)

/-- C4 counterexample: there is no container (with a valid `int` size) and
negative `int` index that the `in_bounds` check accepts: the cast to
`size_t` sends a negative index to a value of at least 2^64 - 2^31, which
exceeds every valid size, so the unsigned comparison rejects it. -/
theorem in_bounds_negative_accept_refuted :
    ¬ ∃ (v : CVector Int) (i : Int), 0 ≤ v.size ∧ v.size < INTMOD ∧
      -INTMOD ≤ i ∧ i < 0 ∧ vector_in_bounds v i = true := by
  rintro ⟨v, i, hs1, hs2, hi1, hi2, hb⟩
  rw [in_bounds_char v i hi1 (by omega) hs1 hs2] at hb
  omega

/-- C4 amended: for every container with a valid `int` size and every
negative `int` index, the `in_bounds` check returns false: the comparison of
the signed index against size after the cast to an unsigned type silently
rejects negative indices (it does not accept them). -/
theorem in_bounds_negative_false (v : CVector α) (i : Int)
    (hi1 : -INTMOD ≤ i) (hi2 : i < 0) (hs1 : 0 ≤ v.size)
    (hs2 : v.size < INTMOD) :
    vector_in_bounds v i = false := by
  cases hb : vector_in_bounds v i
  · rfl
  · have := (in_bounds_char v i hi1 (by omega) hs1 hs2).mp hb
    omega

theorem in_bounds_negative_false_witness :
    vector_in_bounds sampleV (-1) = false :=
  in_bounds_negative_false sampleV (-1) (by decide) (by decide) (by decide)
    (by decide)

/-- C9: for `0 ≤ i < size`, `set(v, i, x)` overwrites only slot `i`: size,
capacity and the elements at every other index are unchanged, and a
subsequent `get(v, i)` returns `x`. -/
theorem set_frame (v : CVector α) (i : Int) (x : α) (hi : 0 ≤ i)
    (hlt : i < v.size) (hs : v.size < INTMOD) :
    ∃ w, vector_set v i x = some w ∧
      w.size = v.size ∧
      w.capacity = v.capacity ∧
      (∀ j, j ≠ i → w.elems j = v.elems j) ∧
      vector_get w i = some x := by
  obtain ⟨w, heq, hsize, hcap, helems⟩ :=
    vector_set_char v i x hi hlt (lt_usize_of_lt_intmod hs)
  refine ⟨w, heq, hsize, hcap, ?_, ?_⟩
  · intro j hj
    rw [helems j, if_neg hj]
  · rw [vector_get_pos w i hi (by rw [hsize]; exact hlt)
      (by rw [hsize]; exact lt_usize_of_lt_intmod hs), helems i, if_pos rfl]

/-- A concrete container that is full (size = capacity = 1), used as a
witness input for the growth claim. -/
def sampleFull : CVector Int :=
  { elems := fun j => if j = 0 then 5 else 0, capacity := 1, size := 1 }

/-- C5: a freshly created container has size 0 and capacity 1, and a write
(here a push onto a full container, the case in which the write would make
`size` exceed `capacity`) exactly doubles the capacity while keeping every
previously stored element retrievable via `get` at its original index. -/
theorem create_and_capacity_doubling (junk : Int → α) (v : CVector α) (x : α)
    (hs : 0 ≤ v.size) (hsmall : v.size + 1 < INTMOD)
    (hcap : v.size = v.capacity) :
    (vector_create junk).size = 0 ∧ (vector_create junk).capacity = 1 ∧
    (∀ (i : Int) (y : α) (u : CVector α), vector_insert v i y = some u →
      v.size + 1 > v.capacity → u.capacity = 2 * v.capacity) ∧
    ∃ w, vector_push v x = some w ∧ w.capacity = 2 * v.capacity ∧
      ∀ j, 0 ≤ j → j < v.size → vector_get w j = vector_get v j := by
  refine ⟨rfl, rfl, ?_, ?_⟩
  · intro i y u hu hgt
    obtain ⟨-, hc⟩ := insert_size_cap hu
    rw [hc, if_pos hgt]
    omega
  obtain ⟨w, heq, hsize, hcapw, helems⟩ :=
    vector_insert_char v v.size x hs le_rfl (lt_usize_of_lt_intmod hsmall)
  refine ⟨w, heq, ?_, ?_⟩
  · rw [hcapw, if_pos (by omega)]
    omega
  · intro j hj1 hj2
    rw [vector_get_pos v j hj1 hj2
        (lt_usize_of_lt_intmod (by omega : v.size < INTMOD)),
      vector_get_pos w j hj1 (by omega)
        (by rw [hsize]; exact lt_usize_of_lt_intmod hsmall),
      helems j, if_neg (by omega), if_neg (by omega)]

theorem create_and_capacity_doubling_witness :
    (vector_create sampleJunk).size = 0 ∧
    (vector_create sampleJunk).capacity = 1 ∧
    (∀ (i : Int) (y : Int) (u : CVector Int),
      vector_insert sampleFull i y = some u →
      sampleFull.size + 1 > sampleFull.capacity →
      u.capacity = 2 * sampleFull.capacity) ∧
    ∃ w, vector_push sampleFull (6 : Int) = some w ∧
      w.capacity = 2 * sampleFull.capacity ∧
      ∀ j, 0 ≤ j → j < sampleFull.size →
        vector_get w j = vector_get sampleFull j :=
  create_and_capacity_doubling sampleJunk sampleFull 6 (by decide) (by decide)
    (by decide)

/-- C7: for every container, `push(v, x)` is literally
`insert(v, size, x)`, and for every non-empty container `pop(v)` is
literally `remove(v, size - 1)`: the resulting states (and, for pop, the
returned handle) coincide. -/
theorem push_pop_are_boundary_insert_remove (v : CVector α) (x : α) :
    vector_push v x = vector_insert v (vector_size v) x ∧
    (0 < vector_size v → vector_pop v = vector_remove v (vector_size v - 1)) :=
  ⟨rfl, fun _ => rfl⟩

theorem push_pop_are_boundary_insert_remove_witness :
    vector_push sampleV (42 : Int) =
      vector_insert sampleV (vector_size sampleV) 42 ∧
    vector_pop sampleV = vector_remove sampleV (vector_size sampleV - 1) :=
  ⟨(push_pop_are_boundary_insert_remove sampleV 42).1,
   (push_pop_are_boundary_insert_remove sampleV 42).2 (by decide)⟩

/-- Composition helper: inserting `x` at a valid index `i` and then removing
at the same index returns `x` and restores the size and every logical slot. -/
theorem insert_then_remove (v : CVector α) (i : Int) (x : α) (hi : 0 ≤ i)
    (hle : i ≤ v.size) (hs : v.size + 1 < USIZE) :
    ∃ w u, vector_insert v i x = some w ∧ w.size = v.size + 1 ∧
      vector_remove w i = some (x, u) ∧
      u.size = v.size ∧
      ∀ j, 0 ≤ j → j < v.size → u.elems j = v.elems j := by
  obtain ⟨w, heqI, hsizeW, hcapW, helemsW⟩ := vector_insert_char v i x hi hle hs
  have hiw : i < w.size := by omega
  obtain ⟨u, heqR, hsizeU, hcapU, helemsU⟩ :=
    vector_remove_char w i hi hiw (by omega)
  have hwx : w.elems i = x := by rw [helemsW i, if_pos rfl]
  refine ⟨w, u, heqI, hsizeW, ?_, by omega, ?_⟩
  · rw [heqR, hwx]
  · intro j hj1 hj2
    rw [helemsU j]
    by_cases hcase : i ≤ j
    · rw [if_pos ⟨hcase, by omega⟩, helemsW (j + 1), if_neg (by omega),
        if_pos (by omega)]
      congr 1
      omega
    · rw [if_neg (by omega), helemsW j, if_neg (by omega), if_neg (by omega)]

/-- C8: `insert(v, i, x)` immediately followed by `remove` at the same index
returns `x` and restores the prior logical sequence and size; in particular
`push(v, x)` immediately followed by `pop` returns `x` and restores the
prior size. -/
theorem insert_remove_roundtrip (v : CVector α) (i : Int) (x : α) (hi : 0 ≤ i)
    (hle : i ≤ v.size) (hsmall : v.size + 1 < INTMOD) :
    (∃ w u, vector_insert v i x = some w ∧ vector_remove w i = some (x, u) ∧
      u.size = v.size ∧ toSeq u = toSeq v) ∧
    (∃ w u, vector_push v x = some w ∧ vector_pop w = some (x, u) ∧
      u.size = v.size) := by
  have hs : v.size + 1 < USIZE := lt_usize_of_lt_intmod hsmall
  constructor
  · obtain ⟨w, u, heqI, hsizeW, heqR, husize, helem⟩ :=
      insert_then_remove v i x hi hle hs
    refine ⟨w, u, heqI, heqR, husize, ?_⟩
    unfold toSeq
    rw [husize]
    have harg : ∀ k ∈ List.range v.size.toNat,
        u.elems (k : Int) = v.elems (k : Int) := by
      intro k hk
      rw [List.mem_range] at hk
      exact helem (k : Int) (by omega) (by omega)
    exact List.map_congr_left harg
  · obtain ⟨w, u, heqI, hsizeW, heqR, husize, helem⟩ :=
      insert_then_remove v v.size x (by omega) le_rfl hs
    refine ⟨w, u, heqI, ?_, husize⟩
    show vector_remove w (w.size - 1) = some (x, u)
    rw [(by omega : w.size - 1 = v.size)]
    exact heqR

theorem insert_remove_roundtrip_witness :
    ((∃ w u, vector_insert sampleV 1 (99 : Int) = some w ∧
      vector_remove w 1 = some (99, u) ∧
      u.size = sampleV.size ∧ toSeq u = toSeq sampleV) ∧
    (∃ w u, vector_push sampleV (99 : Int) = some w ∧
      vector_pop w = some (99, u) ∧ u.size = sampleV.size)) :=
  insert_remove_roundtrip sampleV 1 99 (by decide) (by decide) (by decide)

theorem set_frame_witness :
    ∃ w, vector_set sampleV 2 (77 : Int) = some w ∧
      w.size = sampleV.size ∧
      w.capacity = sampleV.capacity ∧
      (∀ j, j ≠ 2 → w.elems j = sampleV.elems j) ∧
      vector_get w 2 = some 77 :=
  set_frame sampleV 2 77 (by decide) (by decide) (by decide)

/-- C10: every element access goes through `get_element`; its assert passes
for every call made by get, set, insert, remove, push and pop invoked under
the spec precondition, and conversely a call with a negative or too-large
index — including the index `size - 1 = -1` that pop computes on an empty
container — fails the assert because of the unsigned cast, so the operation
aborts before any slot is read or written (`none` in the model). -/
theorem get_element_assert_safety (v : CVector α) (i : Int) (x : α)
    (hi1 : -INTMOD ≤ i) (hi2 : i < INTMOD) (hs1 : 0 ≤ v.size)
    (hs2 : v.size + 1 < INTMOD) :
    ((0 ≤ i ∧ i < v.size) → (get_element v i).isSome = true) ∧
    ((0 ≤ i ∧ i ≤ v.size) → (vector_insert v i x).isSome = true) ∧
    (vector_push v x).isSome = true ∧
    (0 < v.size → (vector_pop v).isSome = true) ∧
    ((i < 0 ∨ v.size ≤ i) →
      get_element v i = none ∧ vector_get v i = none ∧
      vector_set v i x = none ∧ vector_remove v i = none) ∧
    (v.size = 0 → vector_pop v = none) := by
  have hUS : v.size < USIZE := lt_usize_of_lt_intmod (by omega)
  refine ⟨?_, ?_, ?_, ?_, ?_, ?_⟩
  · rintro ⟨h1, h2⟩
    rw [get_element_pos v i h1 h2 hUS]
    rfl
  · rintro ⟨h1, h2⟩
    obtain ⟨w, heq, -, -, -⟩ :=
      vector_insert_char v i x h1 h2 (lt_usize_of_lt_intmod hs2)
    rw [heq]
    rfl
  · obtain ⟨w, heq, -, -, -⟩ :=
      vector_insert_char v v.size x hs1 le_rfl (lt_usize_of_lt_intmod hs2)
    show (vector_insert v v.size x).isSome = true
    rw [heq]
    rfl
  · intro h
    obtain ⟨w, heq, -, -, -⟩ :=
      vector_remove_char v (v.size - 1) (by omega) (by omega) hUS
    show (vector_remove v (v.size - 1)).isSome = true
    rw [heq]
    rfl
  · intro h
    have hnone := get_element_none v i hi1 hi2 hs1 (by omega) h
    refine ⟨hnone, ?_, ?_, ?_⟩
    · simp [vector_get, hnone]
    · simp [vector_set, hnone]
    · simp [vector_remove, hnone]
  · intro h
    have hnone := get_element_none v (v.size - 1) (by omega) (by omega) hs1
      (by omega) (by omega)
    show vector_remove v (v.size - 1) = none
    simp [vector_remove, hnone]

theorem get_element_assert_safety_witness :
    (((0 ≤ (5 : Int) ∧ (5 : Int) < sampleV.size) →
      (get_element sampleV 5).isSome = true) ∧
    ((0 ≤ (5 : Int) ∧ (5 : Int) ≤ sampleV.size) →
      (vector_insert sampleV 5 (7 : Int)).isSome = true) ∧
    (vector_push sampleV (7 : Int)).isSome = true ∧
    (0 < sampleV.size → (vector_pop sampleV).isSome = true) ∧
    (((5 : Int) < 0 ∨ sampleV.size ≤ (5 : Int)) →
      get_element sampleV 5 = none ∧ vector_get sampleV 5 = none ∧
      vector_set sampleV 5 (7 : Int) = none ∧
      vector_remove sampleV 5 = none) ∧
    (sampleV.size = 0 → vector_pop sampleV = none)) :=
  get_element_assert_safety sampleV 5 7 (by decide) (by decide) (by decide)
    (by decide)

/-! Reachability machinery for the state invariant claim: the mutating
operations of the container, their spec preconditions, and the states
reachable from `vector_create` by applying them. -/

/-- The mutating operations the driver can invoke on a container. -/
inductive Op (α : Type) where
  | set (i : Int) (x : α)
  | insert (i : Int) (x : α)
  | remove (i : Int)
  | push (x : α)
  | pop

/-- The spec precondition of each operation. -/
def precond (v : CVector α) : Op α → Prop
  | .set i _ => 0 ≤ i ∧ i < v.size
  | .insert i _ => 0 ≤ i ∧ i ≤ v.size
  | .remove i => 0 ≤ i ∧ i < v.size
  | .push _ => True
  | .pop => 0 < v.size

/-- The state transition of each operation (the handle a remove or pop
returns is dropped; only the container state is kept). -/
def applyOp (v : CVector α) : Op α → Option (CVector α)
  | .set i x => vector_set v i x
  | .insert i x => vector_insert v i x
  | .remove i => (vector_remove v i).map Prod.snd
  | .push x => vector_push v x
  | .pop => (vector_pop v).map Prod.snd

/-- States reachable from a freshly created container by any sequence of
operations, each invoked under its precondition. -/
inductive Reachable : CVector α → Prop where
  | create (junk : Int → α) : Reachable (vector_create junk)
  | step {v w : CVector α} (op : Op α) : Reachable v → precond v op →
      applyOp v op = some w → Reachable w

/-- The container invariant: `0 ≤ size ≤ capacity` and at least one slot is
allocated. -/
def Inv (v : CVector α) : Prop :=
  0 ≤ v.size ∧ v.size ≤ v.capacity ∧ 1 ≤ v.capacity

/-- Any successful operation invoked under its precondition preserves the
invariant and never shrinks the capacity. -/
theorem applyOp_inv {v w : CVector α} {op : Op α} (hv : Inv v)
    (hp : precond v op) (h : applyOp v op = some w) :
    Inv w ∧ v.capacity ≤ w.capacity := by
  obtain ⟨h1, h2, h3⟩ := hv
  cases op with
  | set i x =>
    obtain ⟨hs, hc⟩ := set_size_cap h
    exact ⟨⟨by omega, by omega, by omega⟩, by omega⟩
  | insert i x =>
    obtain ⟨hs, hc⟩ := insert_size_cap h
    by_cases hcase : v.size + 1 > v.capacity
    · rw [if_pos hcase] at hc
      exact ⟨⟨by omega, by omega, by omega⟩, by omega⟩
    · rw [if_neg hcase] at hc
      exact ⟨⟨by omega, by omega, by omega⟩, by omega⟩
  | remove i =>
    obtain ⟨hp1, hp2⟩ := hp
    rw [show applyOp v (Op.remove i) = (vector_remove v i).map Prod.snd
      from rfl, Option.map_eq_some'] at h
    obtain ⟨r, hr, hw⟩ := h
    subst hw
    obtain ⟨hs, hc⟩ := remove_size_cap hr
    exact ⟨⟨by omega, by omega, by omega⟩, by omega⟩
  | push x =>
    have h' : vector_insert v v.size x = some w := h
    obtain ⟨hs, hc⟩ := insert_size_cap h'
    by_cases hcase : v.size + 1 > v.capacity
    · rw [if_pos hcase] at hc
      exact ⟨⟨by omega, by omega, by omega⟩, by omega⟩
    · rw [if_neg hcase] at hc
      exact ⟨⟨by omega, by omega, by omega⟩, by omega⟩
  | pop =>
    rw [show applyOp v Op.pop = (vector_remove v (v.size - 1)).map Prod.snd
      from rfl, Option.map_eq_some'] at h
    obtain ⟨r, hr, hw⟩ := h
    subst hw
    obtain ⟨hs, hc⟩ := remove_size_cap hr
    have hp' : 0 < v.size := hp
    exact ⟨⟨by omega, by omega, by omega⟩, by omega⟩

/-- Every reachable state satisfies the invariant. -/
theorem reachable_inv {v : CVector α} (h : Reachable v) : Inv v := by
  induction h with
  | create junk => exact ⟨le_refl 0, by simp [vector_create], le_refl 1⟩
  | step op hr hp happ ih => exact (applyOp_inv ih hp happ).1

/-- C6: in every state reachable from create by set, insert, remove, push
and pop (each invoked under its precondition), `0 ≤ size ≤ capacity` holds,
and no operation (in particular remove and pop) ever decreases the
capacity. -/
theorem reachable_inv_and_cap_monotone (v : CVector α) (h : Reachable v) :
    (0 ≤ v.size ∧ v.size ≤ v.capacity) ∧
    ∀ (op : Op α) (w : CVector α), precond v op → applyOp v op = some w →
      v.capacity ≤ w.capacity := by
  have hv := reachable_inv h
  exact ⟨⟨hv.1, hv.2.1⟩, fun op w hp happ => (applyOp_inv hv hp happ).2⟩

theorem reachable_inv_and_cap_monotone_witness :
    ((0 ≤ (vector_create sampleJunk).size ∧
      (vector_create sampleJunk).size ≤ (vector_create sampleJunk).capacity) ∧
    ∀ (op : Op Int) (w : CVector Int), precond (vector_create sampleJunk) op →
      applyOp (vector_create sampleJunk) op = some w →
      (vector_create sampleJunk).capacity ≤ w.capacity) :=
  reachable_inv_and_cap_monotone (vector_create sampleJunk)
    (Reachable.create sampleJunk)

end CVec
